import Mathlib

/-!
Verification of the retrieval/ranking subsystem of the knowledge_system
repository (backend/rag_engine.py, backend/agentic_rag.py,
backend/pdf_processor.py, backend/task_manager.py) against its
natural-language specification.

The Python code is shallowly embedded: pure fragments become Lean
functions, stateful fragments become explicit state passing, Python dicts
with insertion order become association lists, Python float scores become
rationals, and the LLM / embedding services become oracle parameters.
-/

namespace KnowledgeSystem

/-! ## Shared document model

A retrieved chunk is a langchain Document: a page content string plus a
metadata dict.  We keep the metadata fields used by the claims under
verification (source, chunk_id, source_role); the remaining keys
(parent_id, section, context) play no role in the claims below.
-/

structure DocMeta where
  source : String
  chunk_id : String
  source_role : String
deriving DecidableEq, Repr

structure Doc where
  page_content : String
  metadata : DocMeta
deriving DecidableEq, Repr

/-- Key used for deduplication in hybrid search and the cross-query merge,
from rag_engine.py line 917 and line 929: source, underscore, chunk id. -/
def doc_key (m : DocMeta) : String := m.source ++ "_" ++ m.chunk_id

/-! ## C2: hybrid search with weighted Reciprocal Rank Fusion

Embedding of AdvancedRAGEngine._hybrid_search (rag_engine.py lines
888-975).  Python dicts doc_scores and doc_map are insertion-ordered, so
they become association lists; scores are rationals.
-/

/-- Python doc_scores[k] = doc_scores.get(k, 0) + v : add to the score of
an existing key in place, otherwise append the key at the end. -/
def upsertAdd (l : List (String × ℚ)) (k : String) (v : ℚ) : List (String × ℚ) :=
  match l with
  | [] => [(k, v)]
  | p :: rest => if p.1 == k then (p.1, p.2 + v) :: rest else p :: upsertAdd rest k v

/-- Python doc_map[k] = d : overwrite in place, otherwise append. -/
def mapSet (l : List (String × Doc)) (k : String) (d : Doc) : List (String × Doc) :=
  match l with
  | [] => [(k, d)]
  | p :: rest => if p.1 == k then (k, d) :: rest else p :: mapSet rest k d

def hasKey (l : List (String × ℚ)) (k : String) : Bool :=
  l.any (fun p => p.1 == k)

def mapLookup (l : List (String × Doc)) (k : String) : Option Doc :=
  (l.find? (fun p => p.1 == k)).map Prod.snd

/-- In-memory part of the BM25 index consulted by hybrid search:
self.bm25_index.documents and self.bm25_index.metadatas. -/
structure BM25Store where
  documents : List String
  metadatas : List DocMeta
deriving DecidableEq, Repr

def defaultMeta : DocMeta := { source := "", chunk_id := "", source_role := "" }

/-- Vector phase of _hybrid_search (lines 916-920): for each vector result
at 0-based rank r add vector_weight / (60 + r) to its key and record the
document. -/
def vectorPhase (vector_weight : ℚ) (vector_results : List (Doc × ℚ)) :
    List (String × ℚ) × List (String × Doc) :=
  (List.enum vector_results).foldl
    (fun acc p =>
      let rank := p.1
      let doc := p.2.1
      let key := doc_key doc.metadata
      let rrf_score := vector_weight / (60 + (rank : ℚ))
      (upsertAdd acc.1 key rrf_score, mapSet acc.2 key doc))
    ([], [])

/-- BM25 phase of _hybrid_search (lines 923-941): guarded by a non-empty
BM25 corpus; for each (index, score) result at 0-based rank r, if the
index is in range, add bm25_weight / (60 + r) under the shared key,
materialising a Document from the stored content and metadata when the
key was not produced by the vector phase. -/
def bm25Phase (bm25_weight : ℚ) (bm25_results : List (Nat × ℚ)) (store : BM25Store)
    (st : List (String × ℚ) × List (String × Doc)) :
    List (String × ℚ) × List (String × Doc) :=
  if store.documents.isEmpty then st
  else
    (List.enum bm25_results).foldl
      (fun acc p =>
        let rank := p.1
        let doc_idx := p.2.1
        if doc_idx < store.documents.length then
          let content := store.documents.getD doc_idx ""
          let metadata := store.metadatas.getD doc_idx defaultMeta
          let key := doc_key metadata
          let rrf_score := bm25_weight / (60 + (rank : ℚ))
          if hasKey acc.1 key then (upsertAdd acc.1 key rrf_score, acc.2)
          else (acc.1 ++ [(key, rrf_score)],
                mapSet acc.2 key { page_content := content, metadata := metadata })
        else acc)
      st

/-- Fused score table produced by the two phases. -/
def fusedScores (vector_weight bm25_weight : ℚ) (vector_results : List (Doc × ℚ))
    (bm25_results : List (Nat × ℚ)) (store : BM25Store) : List (String × ℚ) :=
  (bm25Phase bm25_weight bm25_results store (vectorPhase vector_weight vector_results)).1

/-- Stable descending insertion used to model Python
sorted(doc_scores.items(), key=score, reverse=True): a new item goes after
every earlier item of greater or equal score. -/
def insertDesc (x : String × ℚ) : List (String × ℚ) → List (String × ℚ)
  | [] => [x]
  | y :: ys => if y.2 < x.2 then x :: y :: ys else y :: insertDesc x ys

def sortByScoreDesc (l : List (String × ℚ)) : List (String × ℚ) :=
  l.foldl (fun acc x => insertDesc x acc) []

/-- Full _hybrid_search pipeline: fuse, sort by fused score descending,
return the top_k documents (lines 943-975). -/
def hybrid_search (vector_weight bm25_weight : ℚ) (vector_results : List (Doc × ℚ))
    (bm25_results : List (Nat × ℚ)) (store : BM25Store) (top_k : Nat) : List Doc :=
  let st := bm25Phase bm25_weight bm25_results store (vectorPhase vector_weight vector_results)
  let sorted_docs := sortByScoreDesc st.1
  (sorted_docs.take top_k).filterMap (fun p => mapLookup st.2 p.1)

def scoreOf (l : List (String × ℚ)) (k : String) : ℚ :=
  ((l.find? (fun p => p.1 == k)).map Prod.snd).getD 0

/-- Relation used to state descending order of fused scores. -/
def scoreGE (p q : String × ℚ) : Prop := q.2 ≤ p.2

theorem mem_insertDesc {b x : String × ℚ} {l : List (String × ℚ)}
    (hb : b ∈ insertDesc x l) : b = x ∨ b ∈ l := by
  induction l with
  | nil => simpa [insertDesc] using hb
  | cons z zs ih =>
    rw [insertDesc] at hb
    by_cases hz : z.2 < x.2
    · rw [if_pos hz] at hb
      rcases List.mem_cons.mp hb with hb | hb
      · exact Or.inl hb
      · exact Or.inr hb
    · rw [if_neg hz] at hb
      rcases List.mem_cons.mp hb with hb | hb
      · exact Or.inr (hb ▸ List.mem_cons_self z zs)
      · rcases ih hb with hb | hb
        · exact Or.inl hb
        · exact Or.inr (List.mem_cons_of_mem z hb)

theorem sorted_insertDesc (x : String × ℚ) (l : List (String × ℚ))
    (h : l.Sorted scoreGE) : (insertDesc x l).Sorted scoreGE := by
  induction l with
  | nil => simp [insertDesc, scoreGE, List.sorted_singleton]
  | cons y ys ih =>
    rw [List.sorted_cons] at h
    by_cases hy : y.2 < x.2
    · rw [insertDesc, if_pos hy, List.sorted_cons]
      refine ⟨?_, List.sorted_cons.mpr h⟩
      intro b hb
      rcases List.mem_cons.mp hb with rfl | hb
      · exact le_of_lt hy
      · exact le_trans (h.1 b hb) (le_of_lt hy)
    · rw [insertDesc, if_neg hy, List.sorted_cons]
      refine ⟨?_, ih h.2⟩
      intro b hb
      rcases mem_insertDesc hb with rfl | hb
      · exact not_lt.mp hy
      · exact h.1 b hb

theorem sorted_sortByScoreDesc (l : List (String × ℚ)) :
    (sortByScoreDesc l).Sorted scoreGE := by
  have key : ∀ (l acc : List (String × ℚ)), acc.Sorted scoreGE →
      (l.foldl (fun acc x => insertDesc x acc) acc).Sorted scoreGE := by
    intro l
    induction l with
    | nil => intro acc h; simpa using h
    | cons x xs ih => intro acc h; exact ih _ (sorted_insertDesc x acc h)
  exact key l [] (by simp)

/-! Concrete RRF scenario of the claim: dense ranks X(0), Y(1); sparse
ranks Y(0), Z(1); weights one half each. -/

def metaX : DocMeta := { source := "x", chunk_id := "0", source_role := "primary" }
def metaY : DocMeta := { source := "y", chunk_id := "0", source_role := "primary" }
def metaZ : DocMeta := { source := "z", chunk_id := "0", source_role := "primary" }

def docX : Doc := { page_content := "X content", metadata := metaX }
def docY : Doc := { page_content := "Y content", metadata := metaY }
def docZ : Doc := { page_content := "Z content", metadata := metaZ }

def exVectorResults : List (Doc × ℚ) := [(docX, (9 : ℚ) / 10), (docY, (8 : ℚ) / 10)]
def exBM25Results : List (Nat × ℚ) := [(0, 5), (1, 4)]
def exStore : BM25Store := { documents := ["Y content", "Z content"], metadatas := [metaY, metaZ] }

def exScores : List (String × ℚ) :=
  fusedScores (1 / 2) (1 / 2) exVectorResults exBM25Results exStore

/-- Raw contribution of a result at 0-based rank r with weight one half. -/
def rrfAt (r : Nat) : ℚ := 1 / 2 / (60 + (r : ℚ))

/-- The fused table on the scenario, evaluated by kernel reduction: the
control flow of the two phases depends only on strings and naturals, so
the carried rational expressions stay symbolic. -/
theorem exScores_eval :
    exScores = [("x_0", rrfAt 0), ("y_0", rrfAt 1 + rrfAt 0), ("z_0", rrfAt 1)] := rfl

theorem exDocMap_eval :
    (bm25Phase (1 / 2) exBM25Results exStore (vectorPhase (1 / 2) exVectorResults)).2 =
      [("x_0", docX), ("y_0", docY), ("z_0", docZ)] := rfl

/-- C2 counterexample: with dense ranks X(0), Y(1), sparse ranks Y(0),
Z(1) and weights (1/2, 1/2), the fused score of Y computed by the code is
(1/2)/61 + (1/2)/60 (Y sits at dense rank 1, contributing w/(60+1)), not
(1/2)/60 + (1/2)/60 as the claim asserts. -/
theorem C2_rrf_score_counterexample :
    scoreOf exScores "y_0" = 1 / 122 + 1 / 120 ∧
    ¬ scoreOf exScores "y_0" = 1 / 120 + 1 / 120 := by
  have h : scoreOf exScores "y_0" = rrfAt 1 + rrfAt 0 := rfl
  rw [h]
  constructor
  · norm_num [rrfAt]
  · norm_num [rrfAt]

theorem exSorted_eval :
    sortByScoreDesc exScores =
      [("y_0", rrfAt 1 + rrfAt 0), ("x_0", rrfAt 0), ("z_0", rrfAt 1)] := by
  rw [exScores_eval]
  show insertDesc ("z_0", rrfAt 1)
      (insertDesc ("y_0", rrfAt 1 + rrfAt 0) (insertDesc ("x_0", rrfAt 0) [])) = _
  rw [insertDesc]
  rw [insertDesc, if_pos (show rrfAt 0 < rrfAt 1 + rrfAt 0 by norm_num [rrfAt])]
  rw [insertDesc, if_neg (show ¬ (rrfAt 1 + rrfAt 0 < rrfAt 1) by norm_num [rrfAt])]
  rw [insertDesc, if_neg (show ¬ (rrfAt 0 < rrfAt 1) by norm_num [rrfAt])]
  rfl

/-- C2 amended: the fused score of a chunk sums w/(60+r) contributions
over both modalities under the shared source_chunkid key, giving
X = (1/2)/60, Y = (1/2)/61 + (1/2)/60, Z = (1/2)/61 on the scenario, with
final order Y, X, Z; and for every input the fused table is returned
sorted by fused score descending. -/
theorem C2_rrf_fusion_amended :
    scoreOf exScores "x_0" = 1 / 120 ∧
    scoreOf exScores "y_0" = 1 / 122 + 1 / 120 ∧
    scoreOf exScores "z_0" = 1 / 122 ∧
    hybrid_search (1 / 2) (1 / 2) exVectorResults exBM25Results exStore 20 =
      [docY, docX, docZ] ∧
    ∀ (vw bw : ℚ) (vr : List (Doc × ℚ)) (br : List (Nat × ℚ)) (store : BM25Store),
      (sortByScoreDesc (fusedScores vw bw vr br store)).Sorted scoreGE := by
  refine ⟨?_, ?_, ?_, ?_, ?_⟩
  · have h : scoreOf exScores "x_0" = rrfAt 0 := rfl
    rw [h]; norm_num [rrfAt]
  · have h : scoreOf exScores "y_0" = rrfAt 1 + rrfAt 0 := rfl
    rw [h]; norm_num [rrfAt]
  · have h : scoreOf exScores "z_0" = rrfAt 1 := rfl
    rw [h]; norm_num [rrfAt]
  · show ((sortByScoreDesc exScores).take 20).filterMap
      (fun p => mapLookup
        (bm25Phase (1 / 2) exBM25Results exStore (vectorPhase (1 / 2) exVectorResults)).2 p.1) =
      [docY, docX, docZ]
    rw [exSorted_eval, exDocMap_eval]
    rfl
  · intro vw bw vr br store
    exact sorted_sortByScoreDesc _

/-! ## C3: source-priority filter

Embedding of AdvancedRAGEngine._filter_by_source_priority (rag_engine.py
lines 1151-1207) together with the tool registry lookup it performs.
-/

structure Tool where
  id : String
  name : String
  filename_patterns : List String
  query_keywords : List String
deriving DecidableEq, Repr

/-- Python substring containment (pattern in source). -/
def containsSub (pat s : List Char) : Bool :=
  (List.range (s.length + 1)).any (fun i => pat.isPrefixOf (s.drop i))

/-- Word character for the word-boundary regex semantics of re, restricted
to the ASCII keywords of the tool registry. -/
def isWordChar (c : Char) : Bool := c.isAlphanum || c == '_'

/-- One position of a word-boundary keyword search: the keyword is a
prefix of the text at i, and both neighbours (when present) are
non-word characters.  Models re.search of a backslash-b wrapped escaped
keyword, for keywords that begin and end with word characters. -/
def kwMatchAt (kw q : List Char) (i : Nat) : Bool :=
  kw.isPrefixOf (q.drop i) &&
  (i == 0 || !isWordChar (q.getD (i - 1) ' ')) &&
  (decide (q.length ≤ i + kw.length) || !isWordChar (q.getD (i + kw.length) ' '))

def kwSearch (kw q : List Char) : Bool :=
  (List.range (q.length + 1)).any (kwMatchAt kw q)

/-- Python str.lower() over the character list (the registry data is
ASCII). -/
def lowerStr (s : String) : List Char := s.toList.map Char.toLower

def toolMatchesQuestion (t : Tool) (question_lower : List Char) : Bool :=
  t.query_keywords.any (fun k => kwSearch k.toList question_lower)

/-- Lines 1162-1171: the first tool whose keyword regex matches the
lowercased question. -/
def findTargetTool (tools : List Tool) (question : String) : Option Tool :=
  tools.find? (fun t => toolMatchesQuestion t (lowerStr question))

/-- Line 1195 / 1198: the in-place metadata mutation
doc.metadata[source_role] = r, as a functional update. -/
def setRole (d : Doc) (r : String) : Doc :=
  { d with metadata := { d.metadata with source_role := r } }

def sourceMatchesTool (t : Tool) (d : Doc) : Bool :=
  t.filename_patterns.any (fun p => containsSub p.toList (lowerStr d.metadata.source))

/-- Lines 1151-1207.  When no tool matches, the document list is returned
as is (line 1175).  When a tool matches, documents are partitioned in
order into matching (marked primary) and non-matching (marked
supplementary), and the result keeps all matching plus at most
MAX_OTHER_DOCS = 1 supplementary. -/
def filter_by_source_priority (tools : List Tool) (question : String)
    (documents : List Doc) : List Doc :=
  match findTargetTool tools question with
  | none => documents
  | some tool =>
    let matching_docs :=
      (documents.filter (fun d => sourceMatchesTool tool d)).map (fun d => setRole d "primary")
    let other_docs :=
      (documents.filter (fun d => !sourceMatchesTool tool d)).map
        (fun d => setRole d "supplementary")
    matching_docs ++ other_docs.take 1

def ptTool : Tool :=
  { id := "pt", name := "PrimeTime (PT)",
    filename_patterns := ["pt", "primetime"],
    query_keywords := ["pt", "primetime", "prime time"] }

def docSupp : Doc :=
  { page_content := "fc chunk",
    metadata := { source := "fc_ug.pdf", chunk_id := "3", source_role := "supplementary" } }

/-- C3 counterexample: on a query matching no tool, the filter returns the
candidate list unchanged instead of marking all documents primary; a
candidate whose metadata already carries source_role supplementary is
returned still marked supplementary, so a supplementary document appears
in a result although the query matched no tool entry. -/
theorem C3_no_tool_counterexample :
    (filter_by_source_priority [ptTool] "how to fix timing" [docSupp]).map
        (fun d => d.metadata.source_role) = ["supplementary"] ∧
    ¬ (∀ d ∈ filter_by_source_priority [ptTool] "how to fix timing" [docSupp],
        d.metadata.source_role = "primary") := by
  constructor
  · decide
  · intro h
    have := h docSupp (by decide)
    simp [docSupp] at this

/-- C3 amended: when some tool matches the query, every candidate whose
source matches its filename patterns is kept marked primary, every
returned document is marked primary or supplementary, and at most one
returned document is marked supplementary; when no tool matches, the
candidate list is returned unchanged, preserving whatever source_role
values the documents already carried. -/
theorem C3_source_filter_amended (tools : List Tool) (question : String)
    (documents : List Doc) :
    (findTargetTool tools question = none →
      filter_by_source_priority tools question documents = documents) ∧
    ∀ t, findTargetTool tools question = some t →
      (∀ d ∈ documents, sourceMatchesTool t d = true →
        setRole d "primary" ∈ filter_by_source_priority tools question documents) ∧
      (∀ d ∈ filter_by_source_priority tools question documents,
        d.metadata.source_role = "primary" ∨ d.metadata.source_role = "supplementary") ∧
      (filter_by_source_priority tools question documents).countP
        (fun d => d.metadata.source_role == "supplementary") ≤ 1 := by
  constructor
  · intro h
    simp [filter_by_source_priority, h]
  · intro t ht
    refine ⟨?_, ?_, ?_⟩
    · intro d hd hmatch
      simp only [filter_by_source_priority, ht]
      refine List.mem_append_left _ ?_
      exact List.mem_map_of_mem _ (List.mem_filter.mpr ⟨hd, hmatch⟩)
    · intro d hd
      simp only [filter_by_source_priority, ht] at hd
      rcases List.mem_append.mp hd with hd | hd
      · rcases List.mem_map.mp hd with ⟨d0, _, rfl⟩
        exact Or.inl rfl
      · have hd2 := List.mem_of_mem_take hd
        rcases List.mem_map.mp hd2 with ⟨d0, _, rfl⟩
        exact Or.inr rfl
    · simp only [filter_by_source_priority, ht]
      rw [List.countP_append]
      have h1 : (((documents.filter (fun d => sourceMatchesTool t d)).map
          (fun d => setRole d "primary")).countP
            (fun d => d.metadata.source_role == "supplementary")) = 0 := by
        rw [List.countP_eq_zero]
        intro d hd
        rcases List.mem_map.mp hd with ⟨d0, _, rfl⟩
        simp [setRole]
      rw [h1]
      have h2 := List.countP_le_length
        (fun d => d.metadata.source_role == "supplementary")
        (l := ((documents.filter (fun d => !sourceMatchesTool t d)).map
          (fun d => setRole d "supplementary")).take 1)
      have h3 : (((documents.filter (fun d => !sourceMatchesTool t d)).map
          (fun d => setRole d "supplementary")).take 1).length ≤ 1 := by
        rw [List.length_take]
        exact min_le_left _ _
      omega

def docPt : Doc :=
  { page_content := "pt chunk",
    metadata := { source := "pt_ug.pdf", chunk_id := "0", source_role := "primary" } }

def docFc : Doc :=
  { page_content := "fc chunk two",
    metadata := { source := "fc_ug.pdf", chunk_id := "1", source_role := "primary" } }

/-- C3 witness: both branches of the amended theorem applied at concrete
inputs; the query pt timing matches the pt tool, the query about fixing
timing matches none. -/
theorem C3_source_filter_amended_witness :
    filter_by_source_priority [ptTool] "how to fix timing" [docSupp] = [docSupp] ∧
    (filter_by_source_priority [ptTool] "pt timing" [docPt, docFc]).countP
      (fun d => d.metadata.source_role == "supplementary") ≤ 1 ∧
    setRole docPt "primary" ∈ filter_by_source_priority [ptTool] "pt timing" [docPt, docFc] := by
  refine ⟨?_, ?_, ?_⟩
  · exact (C3_source_filter_amended [ptTool] "how to fix timing" [docSupp]).1 (by decide)
  · exact ((C3_source_filter_amended [ptTool] "pt timing" [docPt, docFc]).2 ptTool
      (by decide)).2.2
  · exact (((C3_source_filter_amended [ptTool] "pt timing" [docPt, docFc]).2 ptTool
      (by decide)).1) docPt (by decide) (by decide)

/-! ## C5: grade node of the agentic controller

Embedding of AgenticRAGGraph.grade_node (agentic_rag.py lines 117-172).
The per-document LLM judgment (JSON parse of the score field, with the
substring yes fallback) is abstracted into a boolean oracle indexed by the
position of the document in the graded list.
-/

structure AgentStateM where
  question : String
  current_query : String
  documents : List Doc
  generation : String
  iteration : Nat
  route_decision : String
  grade_decision : String
  skip_generate : Bool
deriving DecidableEq, Repr

/-- Lines 117-172: empty document list gives not_relevant; otherwise each
document is judged, the judged-yes documents are collected, and the
decision is relevant when that collection is non-empty.  Filtering of
state.documents is disabled in the source (line 165), so the document
list is left untouched. -/
def grade_node (judge : Nat → Bool) (s : AgentStateM) : AgentStateM :=
  if s.documents.isEmpty then { s with grade_decision := "not_relevant" }
  else if (((List.enum s.documents).filter (fun p => judge p.1)).map Prod.snd).isEmpty then
    { s with grade_decision := "not_relevant" }
  else { s with grade_decision := "relevant" }

theorem grade_node_documents (judge : Nat → Bool) (s : AgentStateM) :
    (grade_node judge s).documents = s.documents := by
  unfold grade_node
  split
  · rfl
  · split <;> rfl

theorem grade_node_iteration (judge : Nat → Bool) (s : AgentStateM) :
    (grade_node judge s).iteration = s.iteration := by
  unfold grade_node
  split
  · rfl
  · split <;> rfl

theorem grade_node_decision (judge : Nat → Bool) (s : AgentStateM) :
    (grade_node judge s).grade_decision = "relevant" ↔
      ∃ i, i < s.documents.length ∧ judge i = true := by
  unfold grade_node
  by_cases hempty : s.documents.isEmpty
  · rw [if_pos hempty]
    rw [List.isEmpty_iff] at hempty
    constructor
    · intro h
      exact absurd h (show ¬ ("not_relevant" : String) = "relevant" by decide)
    · rintro ⟨i, hi, _⟩
      rw [hempty] at hi
      exact absurd hi (by simp)
  · rw [if_neg hempty]
    by_cases hrel : (((List.enum s.documents).filter (fun p => judge p.1)).map Prod.snd).isEmpty
    · rw [if_pos hrel]
      rw [List.isEmpty_iff, List.map_eq_nil_iff, List.filter_eq_nil_iff] at hrel
      constructor
      · intro h
        exact absurd h (show ¬ ("not_relevant" : String) = "relevant" by decide)
      · rintro ⟨i, hi, hj⟩
        have hmem := List.forall_mem_enum.mp hrel i hi
        exact absurd hj (by simpa using hmem)
    · rw [if_neg hrel]
      rw [List.isEmpty_iff, List.map_eq_nil_iff, List.filter_eq_nil_iff] at hrel
      push_neg at hrel
      constructor
      · intro _
        obtain ⟨i, hi, hj2⟩ := List.exists_mem_enum.mp hrel
        exact ⟨i, hi, by simpa using hj2⟩
      · intro _
        rfl

/-- C5: the grade node never changes the retrieved document list (nor the
iteration counter), however the individual children are judged, and its
decision is relevant exactly when at least one child is judged yes. -/
theorem C5_grade_frame (judge : Nat → Bool) (s : AgentStateM) :
    (grade_node judge s).documents = s.documents ∧
    (grade_node judge s).iteration = s.iteration ∧
    ((grade_node judge s).grade_decision = "relevant" ↔
      ∃ i, i < s.documents.length ∧ judge i = true) :=
  ⟨grade_node_documents judge s, grade_node_iteration judge s, grade_node_decision judge s⟩

/-! ## C4: termination of the agentic control loop

Small-step embedding of the LangGraph state machine built in
AgenticRAGGraph.build_graph (agentic_rag.py lines 313-362).  Each arm
fuses a node function with the conditional edge that follows it:
router_node plus route_after_router, grade_node plus route_after_grade
(lines 295-307, which first check iteration against max_iterations = 3
and only then the grade decision).  The LLM calls of the nodes are
abstracted into an oracle.
-/

inductive GraphNode
  | router | retrieve | grade | rewrite | generate | finished
deriving DecidableEq, Repr

/-- External behaviour: the router answer, the per-round retrieval
results, the per-round per-document judgments, the rewritten queries and
the generated answer. -/
structure AgentOracle where
  route_response_has_retrieve : Bool
  retrieved : Nat → List Doc
  judge : Nat → Nat → Bool
  rewritten : Nat → String
  generated : String

def max_iterations : Nat := 3

/-- One transition of the compiled graph: none encodes END. -/
def graphStep (o : AgentOracle) : GraphNode × AgentStateM → Option (GraphNode × AgentStateM)
  | (GraphNode.router, s) =>
    if o.route_response_has_retrieve then
      some (GraphNode.retrieve, { s with route_decision := "retrieve" })
    else
      some (GraphNode.generate, { s with route_decision := "generate" })
  | (GraphNode.retrieve, s) =>
    some (GraphNode.grade,
      { s with documents := o.retrieved s.iteration, iteration := s.iteration + 1 })
  | (GraphNode.grade, s) =>
    if (grade_node (o.judge s.iteration) s).iteration ≥ max_iterations then
      some (GraphNode.generate, grade_node (o.judge s.iteration) s)
    else if (grade_node (o.judge s.iteration) s).grade_decision = "relevant" then
      some (GraphNode.generate, grade_node (o.judge s.iteration) s)
    else
      some (GraphNode.rewrite, grade_node (o.judge s.iteration) s)
  | (GraphNode.rewrite, s) =>
    some (GraphNode.retrieve, { s with current_query := o.rewritten s.iteration })
  | (GraphNode.generate, s) =>
    some (GraphNode.finished,
      { s with generation := if s.skip_generate then "" else o.generated })
  | (GraphNode.finished, _) => none

theorem graphStep_router (o : AgentOracle) (s : AgentStateM) :
    graphStep o (GraphNode.router, s) =
      if o.route_response_has_retrieve then
        some (GraphNode.retrieve, { s with route_decision := "retrieve" })
      else
        some (GraphNode.generate, { s with route_decision := "generate" }) := rfl

theorem graphStep_grade (o : AgentOracle) (s : AgentStateM) :
    graphStep o (GraphNode.grade, s) =
      if (grade_node (o.judge s.iteration) s).iteration ≥ max_iterations then
        some (GraphNode.generate, grade_node (o.judge s.iteration) s)
      else if (grade_node (o.judge s.iteration) s).grade_decision = "relevant" then
        some (GraphNode.generate, grade_node (o.judge s.iteration) s)
      else
        some (GraphNode.rewrite, grade_node (o.judge s.iteration) s) := rfl

def runSteps (o : AgentOracle) : Nat → Option (GraphNode × AgentStateM) →
    Option (GraphNode × AgentStateM)
  | 0, x => x
  | n + 1, x => runSteps o n (x.bind (graphStep o))

/-- Initial state used by query_agentic and query_agentic_stream
(rag_engine.py lines 1547-1556 and 1625-1635): iteration starts at 0. -/
def initAgentState (question : String) (skip : Bool) : AgentStateM :=
  { question := question, current_query := question, documents := [], generation := "",
    iteration := 0, route_decision := "", grade_decision := "", skip_generate := skip }

theorem runSteps_add (o : AgentOracle) (m n : Nat) (x : Option (GraphNode × AgentStateM)) :
    runSteps o (m + n) x = runSteps o n (runSteps o m x) := by
  induction m generalizing x with
  | zero =>
    rw [Nat.zero_add]
    rfl
  | succ m ih =>
    have harith : m + 1 + n = (m + n) + 1 := by omega
    rw [harith, runSteps, runSteps, ih]

theorem runSteps_none (o : AgentOracle) (n : Nat) : runSteps o n none = none := by
  induction n with
  | zero => rfl
  | succ n ih => exact ih

/-- From the grade node, the loop reaches END within 3 * j + 3 steps
whenever at most j rewrite rounds remain. -/
theorem grade_terminates (o : AgentOracle) :
    ∀ (j : Nat) (s : AgentStateM), 3 - s.iteration ≤ j →
      ∃ n, n ≤ 3 * j + 3 ∧ runSteps o n (some (GraphNode.grade, s)) = none := by
  intro j
  induction j with
  | zero =>
    intro s hs
    refine ⟨3, by omega, ?_⟩
    have hiter : (grade_node (o.judge s.iteration) s).iteration ≥ max_iterations := by
      rw [grade_node_iteration]
      simp only [max_iterations]
      omega
    show runSteps o 2 (graphStep o (GraphNode.grade, s)) = none
    rw [graphStep_grade, if_pos hiter]
    rfl
  | succ j ih =>
    intro s hs
    by_cases hexit : (grade_node (o.judge s.iteration) s).iteration ≥ max_iterations ∨
        (grade_node (o.judge s.iteration) s).grade_decision = "relevant"
    · refine ⟨3, by omega, ?_⟩
      show runSteps o 2 (graphStep o (GraphNode.grade, s)) = none
      have hgen : graphStep o (GraphNode.grade, s) =
          some (GraphNode.generate, grade_node (o.judge s.iteration) s) := by
        rw [graphStep_grade]
        rcases hexit with hexit | hexit
        · rw [if_pos hexit]
        · by_cases hge : (grade_node (o.judge s.iteration) s).iteration ≥ max_iterations
          · rw [if_pos hge]
          · rw [if_neg hge, if_pos hexit]
      rw [hgen]
      rfl
    · push_neg at hexit
      have hrw : graphStep o (GraphNode.grade, s) =
          some (GraphNode.rewrite, grade_node (o.judge s.iteration) s) := by
        rw [graphStep_grade, if_neg (not_le.mpr hexit.1), if_neg hexit.2]
      have hlt : s.iteration < 3 := by
        have h1 := hexit.1
        rw [grade_node_iteration] at h1
        simpa [max_iterations] using h1
      have h3 : runSteps o 3 (some (GraphNode.grade, s)) =
          some (GraphNode.grade,
            { grade_node (o.judge s.iteration) s with
              current_query := o.rewritten (grade_node (o.judge s.iteration) s).iteration,
              documents := o.retrieved (grade_node (o.judge s.iteration) s).iteration,
              iteration := (grade_node (o.judge s.iteration) s).iteration + 1 }) := by
        show runSteps o 2 (graphStep o (GraphNode.grade, s)) = _
        rw [hrw]
        rfl
      obtain ⟨n, hn, hterm⟩ := ih
        { grade_node (o.judge s.iteration) s with
          current_query := o.rewritten (grade_node (o.judge s.iteration) s).iteration,
          documents := o.retrieved (grade_node (o.judge s.iteration) s).iteration,
          iteration := (grade_node (o.judge s.iteration) s).iteration + 1 }
        (by
          have hi := grade_node_iteration (o.judge s.iteration) s
          simp only
          omega)
      refine ⟨3 + n, by omega, ?_⟩
      rw [runSteps_add, h3, hterm]

/-- Iteration invariant attached to each node of the graph. -/
def iterInv : GraphNode × AgentStateM → Prop
  | (GraphNode.router, s) => s.iteration = 0
  | (GraphNode.retrieve, s) => s.iteration ≤ 2
  | (GraphNode.rewrite, s) => s.iteration ≤ 2
  | (_, s) => s.iteration ≤ 3

theorem graphStep_inv (o : AgentOracle) (x y : GraphNode × AgentStateM)
    (hx : iterInv x) (hstep : graphStep o x = some y) : iterInv y := by
  obtain ⟨node, s⟩ := x
  cases node with
  | router =>
    rw [graphStep_router] at hstep
    simp only [iterInv] at hx
    split at hstep <;> cases hstep <;> simp only [iterInv] <;> omega
  | retrieve =>
    rw [show graphStep o (GraphNode.retrieve, s) = some (GraphNode.grade,
      { s with documents := o.retrieved s.iteration, iteration := s.iteration + 1 }) from rfl]
      at hstep
    cases hstep
    simp only [iterInv] at hx ⊢
    omega
  | grade =>
    rw [graphStep_grade] at hstep
    simp only [iterInv] at hx
    have hiter := grade_node_iteration (o.judge s.iteration) s
    split at hstep
    · cases hstep
      simp only [iterInv]
      omega
    · split at hstep
      · cases hstep
        simp only [iterInv]
        omega
      · cases hstep
        rename_i hge _
        simp only [max_iterations, not_le] at hge
        simp only [iterInv]
        omega
  | rewrite =>
    rw [show graphStep o (GraphNode.rewrite, s) = some (GraphNode.retrieve,
      { s with current_query := o.rewritten s.iteration }) from rfl] at hstep
    cases hstep
    simp only [iterInv] at hx ⊢
    omega
  | generate =>
    rw [show graphStep o (GraphNode.generate, s) = some (GraphNode.finished,
      { s with generation := if s.skip_generate then "" else o.generated }) from rfl] at hstep
    cases hstep
    simp only [iterInv] at hx ⊢
    omega
  | finished => exact Option.noConfusion hstep

theorem runSteps_inv (o : AgentOracle) (n : Nat) (x y : GraphNode × AgentStateM)
    (hx : iterInv x) (hrun : runSteps o n (some x) = some y) : iterInv y := by
  induction n generalizing x with
  | zero =>
    cases hrun
    exact hx
  | succ n ih =>
    rw [runSteps] at hrun
    have hbind : (some x).bind (graphStep o) = graphStep o x := rfl
    rw [hbind] at hrun
    rcases hstep : graphStep o x with _ | z
    · rw [hstep, runSteps_none] at hrun
      cases hrun
    · rw [hstep] at hrun
      exact ih z (graphStep_inv o x z hx hstep) hrun

/-- C4: every run of the agentic controller from the initial state
terminates within 11 steps; along the whole run the iteration counter
stays at most 3; and the grade node hands control to rewrite only while
its iteration is strictly below max_iterations. -/
theorem C4_agentic_termination (o : AgentOracle) (question : String) (skip : Bool) :
    (∃ n, n ≤ 11 ∧
      runSteps o n (some (GraphNode.router, initAgentState question skip)) = none) ∧
    (∀ n node s,
      runSteps o n (some (GraphNode.router, initAgentState question skip)) = some (node, s) →
        s.iteration ≤ 3) ∧
    (∀ s s1, graphStep o (GraphNode.grade, s) = some (GraphNode.rewrite, s1) →
      s.iteration < max_iterations) := by
  refine ⟨?_, ?_, ?_⟩
  · by_cases hroute : o.route_response_has_retrieve
    · have h2 : runSteps o 2 (some (GraphNode.router, initAgentState question skip)) =
          some (GraphNode.grade,
            { initAgentState question skip with
              route_decision := "retrieve", documents := o.retrieved 0, iteration := 1 }) := by
        show runSteps o 1 (graphStep o (GraphNode.router, initAgentState question skip)) = _
        rw [graphStep_router, if_pos hroute]
        rfl
      obtain ⟨n, hn, hterm⟩ := grade_terminates o 2
        { initAgentState question skip with
          route_decision := "retrieve", documents := o.retrieved 0, iteration := 1 }
        (by simp)
      refine ⟨2 + n, by omega, ?_⟩
      rw [runSteps_add, h2, hterm]
    · refine ⟨3, by omega, ?_⟩
      show runSteps o 2 (graphStep o (GraphNode.router, initAgentState question skip)) = none
      rw [graphStep_router, if_neg hroute]
      rfl
  · intro n node s hrun
    have hinv := runSteps_inv o n _ _ (show iterInv (GraphNode.router, initAgentState question skip)
      from rfl) hrun
    cases node <;> simp only [iterInv] at hinv <;> omega
  · intro s s1 hstep
    rw [graphStep_grade] at hstep
    split at hstep
    · cases hstep
    · split at hstep
      · cases hstep
      · rename_i hge _
        have hiter := grade_node_iteration (o.judge s.iteration) s
        simp only [max_iterations, not_le] at hge
        simp only [max_iterations]
        omega

def exOracle : AgentOracle :=
  { route_response_has_retrieve := true,
    retrieved := fun _ => [docPt],
    judge := fun _ _ => false,
    rewritten := fun _ => "rewritten query",
    generated := "answer" }

def exState2 : AgentStateM :=
  { question := "q", current_query := "q", documents := [docPt], generation := "",
    iteration := 1, route_decision := "retrieve", grade_decision := "", skip_generate := false }

/-- C4 witness: the invariant and the rewrite guard of the termination
theorem applied at a concrete oracle and run prefix. -/
theorem C4_agentic_termination_witness :
    exState2.iteration ≤ 3 ∧ exState2.iteration < max_iterations := by
  have h := C4_agentic_termination exOracle "q" false
  refine ⟨h.2.1 2 GraphNode.grade exState2 (by rfl), ?_⟩
  exact h.2.2 exState2 (grade_node (exOracle.judge 1) exState2) (by rfl)

/-! ## C8: event sequence of query_stream

Embedding of the yield structure of AdvancedRAGEngine.query_stream
(rag_engine.py lines 1288-1440).  The retrieval pipeline preceding the
first yield only computes the sources payload, so it is abstracted into
the sources parameter; the LLM stream is abstracted into the list of
chunk texts received before a possible exception.  After the try/except
block the function unconditionally falls through to the history writes
and yields the done event (line 1440), also when an error event was
yielded (line 1430).
-/

inductive SSEEvent
  | metadata (conversation_id : String) (sources : List Doc)
  | content (text : String)
  | error (text : String)
  | done
deriving DecidableEq, Repr

/-- Events produced by the except branch (line 1430): one error event if
the stream raised, none otherwise. -/
def errEvents : Option String → List SSEEvent
  | some e => [SSEEvent.error e]
  | none => []

/-- Events yielded by one invocation of query_stream: the metadata event,
one content event per non-empty streamed chunk (line 1422: if content),
an error event if the stream raised (line 1430), then the done event
(line 1440). -/
def query_stream_events (conversation_id : String) (sources : List Doc)
    (stream_chunks : List String) (stream_error : Option String) : List SSEEvent :=
  [SSEEvent.metadata conversation_id sources]
    ++ (stream_chunks.filter (fun c => !(c == ""))).map SSEEvent.content
    ++ errEvents stream_error
    ++ [SSEEvent.done]

def isErrEvent : SSEEvent → Bool
  | SSEEvent.error _ => true
  | _ => false

/-- In a list with exactly one error position, every decomposition around
an error recovers the tail after that position. -/
theorem err_decomp (A : List SSEEvent) (x : SSEEvent) (rest : List SSEEvent)
    (hA : ∀ a ∈ A, isErrEvent a = false) (hrest : ∀ a ∈ rest, isErrEvent a = false) :
    ∀ (pre : List SSEEvent) (y : SSEEvent) (post : List SSEEvent), isErrEvent y = true →
      A ++ x :: rest = pre ++ y :: post → post = rest := by
  induction A with
  | nil =>
    intro pre y post hy heq
    cases pre with
    | nil =>
      simp only [List.nil_append] at heq
      injection heq with h1 h2
      exact h2.symm
    | cons p pre2 =>
      simp only [List.nil_append, List.cons_append] at heq
      injection heq with h1 h2
      have hmem : y ∈ rest := by
        rw [h2]
        exact List.mem_append_right _ (List.mem_cons_self _ _)
      exact Bool.noConfusion ((hrest y hmem).symm.trans hy)
  | cons a A2 ih =>
    intro pre y post hy heq
    cases pre with
    | nil =>
      simp only [List.cons_append, List.nil_append] at heq
      injection heq with h1 h2
      have hfa := hA a (List.mem_cons_self _ _)
      rw [h1] at hfa
      exact Bool.noConfusion (hfa.symm.trans hy)
    | cons p pre2 =>
      simp only [List.cons_append] at heq
      injection heq with h1 h2
      exact ih (fun b hb => hA b (List.mem_cons_of_mem a hb)) pre2 y post hy h2

theorem not_metadata_in_stream_tail (chunks : List String) (err : Option String)
    (ci : String) (ss : List Doc) :
    SSEEvent.metadata ci ss ∉
      ((chunks.filter (fun c => !(c == ""))).map SSEEvent.content ++
        errEvents err ++ [SSEEvent.done]) := by
  intro hmem
  rcases List.mem_append.mp hmem with h | h
  · rcases List.mem_append.mp h with h | h
    · rcases List.mem_map.mp h with ⟨c, _, hc⟩
      exact SSEEvent.noConfusion hc
    · cases err with
      | some e =>
        have h2 := List.mem_singleton.mp h
        exact SSEEvent.noConfusion h2
      | none => simp [errEvents] at h
  · have h2 := List.mem_singleton.mp h
    exact SSEEvent.noConfusion h2

/-- C8 counterexample: when the LLM stream fails immediately, the yielded
events are metadata, error, done: the done event follows the error event,
so an error does not terminate the stream as the claim asserts. -/
theorem C8_error_counterexample :
    query_stream_events "c1" [] [] (some "boom") =
      [SSEEvent.metadata "c1" [], SSEEvent.error "boom", SSEEvent.done] ∧
    (query_stream_events "c1" [] [] (some "boom")).get? 1 = some (SSEEvent.error "boom") ∧
    (query_stream_events "c1" [] [] (some "boom")).get? 2 = some SSEEvent.done :=
  ⟨rfl, rfl, rfl⟩

/-- C8 amended: the single metadata event opens the stream (a metadata
event occurs at no later position), the done event closes it, and after
an error event the only remaining event is the final done: content events
never follow an error, but done always does. -/
theorem C8_stream_events_amended (cid : String) (srcs : List Doc)
    (chunks : List String) (err : Option String) :
    (query_stream_events cid srcs chunks err).head? = some (SSEEvent.metadata cid srcs) ∧
    (query_stream_events cid srcs chunks err).getLast? = some SSEEvent.done ∧
    (∀ pre e post, query_stream_events cid srcs chunks err =
        pre ++ SSEEvent.error e :: post → post = [SSEEvent.done]) ∧
    (∀ i ci ss, (query_stream_events cid srcs chunks err).get? i =
        some (SSEEvent.metadata ci ss) → i = 0) := by
  refine ⟨rfl, ?_, ?_, ?_⟩
  · exact List.getLast?_concat _
  · intro pre e post heq
    cases herr : err with
    | none =>
      exfalso
      have hmem : SSEEvent.error e ∈ query_stream_events cid srcs chunks err := by
        rw [heq]
        exact List.mem_append_right _ (List.mem_cons_self _ _)
      unfold query_stream_events at hmem
      rw [herr] at hmem
      rcases List.mem_append.mp hmem with h | h
      · rcases List.mem_append.mp h with h | h
        · rcases List.mem_append.mp h with h | h
          · have h2 := List.mem_singleton.mp h
            exact SSEEvent.noConfusion h2
          · rcases List.mem_map.mp h with ⟨c, _, hc⟩
            exact SSEEvent.noConfusion hc
        · simp [errEvents] at h
      · have h2 := List.mem_singleton.mp h
        exact SSEEvent.noConfusion h2
    | some e0 =>
      have hshape : query_stream_events cid srcs chunks err =
          ([SSEEvent.metadata cid srcs] ++
            (chunks.filter (fun c => !(c == ""))).map SSEEvent.content) ++
            SSEEvent.error e0 :: [SSEEvent.done] := by
        unfold query_stream_events
        rw [herr]
        simp [errEvents, List.append_assoc]
      have hA : ∀ a ∈ [SSEEvent.metadata cid srcs] ++
          (chunks.filter (fun c => !(c == ""))).map SSEEvent.content, isErrEvent a = false := by
        intro a ha
        rcases List.mem_append.mp ha with h | h
        · have h2 := List.mem_singleton.mp h
          rw [h2]
          rfl
        · rcases List.mem_map.mp h with ⟨c, _, hc⟩
          rw [← hc]
          rfl
      have hrest : ∀ a ∈ [SSEEvent.done], isErrEvent a = false := by
        intro a ha
        have h2 := List.mem_singleton.mp ha
        rw [h2]
        rfl
      exact err_decomp _ (SSEEvent.error e0) [SSEEvent.done] hA hrest pre
        (SSEEvent.error e) post rfl (hshape.symm.trans heq)
  · intro i ci ss hget
    cases i with
    | zero => rfl
    | succ i =>
      exfalso
      have hcons : query_stream_events cid srcs chunks err =
          SSEEvent.metadata cid srcs ::
            ((chunks.filter (fun c => !(c == ""))).map SSEEvent.content ++
              errEvents err ++ [SSEEvent.done]) := by
        unfold query_stream_events
        simp [List.append_assoc]
      rw [hcons] at hget
      simp only [List.get?_cons_succ] at hget
      have hmem := List.get?_mem hget
      exact not_metadata_in_stream_tail chunks err ci ss hmem

/-- C8 witness: the error decomposition and metadata position parts of the
amended theorem applied at a concrete failing stream. -/
theorem C8_stream_events_amended_witness :
    (query_stream_events "c1" [] ["hi"] (some "boom")).getLast? = some SSEEvent.done ∧
    ([SSEEvent.done] : List SSEEvent) = [SSEEvent.done] ∧ (0 : Nat) = 0 := by
  have h := C8_stream_events_amended "c1" [] ["hi"] (some "boom")
  refine ⟨h.2.1, ?_, ?_⟩
  · exact h.2.2.1 [SSEEvent.metadata "c1" [], SSEEvent.content "hi"] "boom" [SSEEvent.done] rfl
  · exact h.2.2.2 0 "c1" [] rfl

/-! ## C9: upload task lifecycle

Embedding of TaskManager.submit and TaskManager._run (task_manager.py
lines 60-120).  Wall-clock readings become a monotone counter (the end
reading is the start reading plus a non-negative elapsed amount), the
filesystem becomes the list of existing paths, and the ingestion call
becomes an Except outcome.  The observable task snapshots are collected
in order: after submit, after entering the try block, and after the
finally block.
-/

inductive PyTaskStatus
  | pending | processing | completed | failed
deriving DecidableEq, Repr

def PyTaskStatus.isTerminal : PyTaskStatus → Bool
  | completed => true
  | failed => true
  | _ => false

structure UploadTask where
  task_id : String
  filename : String
  status : PyTaskStatus
  chunks_created : Nat
  error : Option String
  created_at : Nat
  completed_at : Option Nat
  processing_started_at : Option Nat
  processing_duration : Option Int
  file_path : Option String
deriving DecidableEq, Repr

/-- TaskManager.submit (lines 60-84): a fresh record in status pending
with the temp file path recorded. -/
def submitTask (task_id filename file_path : String) (now : Nat) : UploadTask :=
  { task_id := task_id, filename := filename, status := PyTaskStatus.pending,
    chunks_created := 0, error := none, created_at := now, completed_at := none,
    processing_started_at := none, processing_duration := none,
    file_path := some file_path }

/-- os.remove inside the finally block, guarded by os.path.exists. -/
def removeFile (fs : List String) (p : String) : List String :=
  if fs.contains p then fs.filter (fun q => !(q == p)) else fs

/-- TaskManager._run (lines 86-120): transition to processing, run the
ingestion, transition to completed or failed, then in the finally block
stamp the completion time and duration and unlink the temp file.  Returns
the ordered task snapshots and the final filesystem. -/
def runTask (t : UploadTask) (fs : List String) (outcome : Except String Nat)
    (t_start elapsed : Nat) : List UploadTask × List String :=
  let processing := { t with
    status := PyTaskStatus.processing,
    processing_started_at := some t_start }
  let t_end := t_start + elapsed
  let afterTry :=
    match outcome with
    | Except.ok chunks =>
      { processing with chunks_created := chunks, status := PyTaskStatus.completed }
    | Except.error e =>
      { processing with status := PyTaskStatus.failed, error := some e }
  let finalTask := { afterTry with
    completed_at := some t_end,
    processing_duration := some ((t_end : Int) - (t_start : Int)) }
  let fs1 :=
    match finalTask.file_path with
    | some p => removeFile fs p
    | none => fs
  ([t, processing, finalTask], fs1)

theorem mem_removeFile {fs : List String} {p q : String}
    (h : q ∈ removeFile fs p) : q ∈ fs ∧ (fs.contains p → q ≠ p) := by
  unfold removeFile at h
  by_cases hc : fs.contains p
  · rw [if_pos hc] at h
    have h2 := List.mem_filter.mp h
    refine ⟨h2.1, fun _ => ?_⟩
    intro hqp
    have := h2.2
    rw [hqp] at this
    simp at this
  · rw [if_neg hc] at h
    exact ⟨h, fun hcc => absurd hcc hc⟩

theorem not_mem_removeFile (fs : List String) (p : String) : p ∉ removeFile fs p := by
  intro h
  unfold removeFile at h
  by_cases hc : fs.contains p
  · rw [if_pos hc] at h
    have h2 := List.mem_filter.mp h
    simp at h2
  · rw [if_neg hc] at h
    exact hc (List.elem_iff.mpr h)

/-- C9: each submitted task moves pending, processing, then exactly one
terminal status (completed on success, failed on error), the trace ends at
that terminal state, the recorded duration is non-negative, and the temp
file is absent from the filesystem after the run. -/
theorem C9_task_lifecycle (tid fn path : String) (now : Nat) (fs : List String)
    (outcome : Except String Nat) (t_start elapsed : Nat) :
    ((runTask (submitTask tid fn path now) fs outcome t_start elapsed).1.map
        UploadTask.status = [PyTaskStatus.pending, PyTaskStatus.processing,
          PyTaskStatus.completed] ∨
     (runTask (submitTask tid fn path now) fs outcome t_start elapsed).1.map
        UploadTask.status = [PyTaskStatus.pending, PyTaskStatus.processing,
          PyTaskStatus.failed]) ∧
    (∃ tfin, ((runTask (submitTask tid fn path now) fs outcome t_start elapsed).1.getLast?
        = some tfin) ∧
      tfin.status.isTerminal = true ∧
      tfin.processing_duration = some ((elapsed : Nat) : Int) ∧
      (0 : Int) ≤ ((elapsed : Nat) : Int)) ∧
    path ∉ (runTask (submitTask tid fn path now) fs outcome t_start elapsed).2 := by
  refine ⟨?_, ?_, ?_⟩
  · cases outcome with
    | ok chunks => exact Or.inl rfl
    | error e => exact Or.inr rfl
  · cases outcome with
    | ok chunks =>
      refine ⟨_, rfl, rfl, ?_, by positivity⟩
      show some ((((t_start + elapsed : Nat) : Int)) - ((t_start : Nat) : Int)) = _
      congr 1
      push_cast
      ring
    | error e =>
      refine ⟨_, rfl, rfl, ?_, by positivity⟩
      show some ((((t_start + elapsed : Nat) : Int)) - ((t_start : Nat) : Int)) = _
      congr 1
      push_cast
      ring
  · cases outcome with
    | ok chunks => exact not_mem_removeFile fs path
    | error e => exact not_mem_removeFile fs path

/-! ## C1: delete_document and the three indices

Embedding of the engine state touched by ingest_document (rag_engine.py
lines 707-774), delete_document (lines 1463-1478), BM25Index.save, load
and add_documents (lines 209-303) and _load_bm25_index (lines 673-701).
The BM25Okapi scoring object itself is not modelled (only the stored
documents, ids and metadata lists, which are what search indexes into),
and the pickle cache file becomes an Option snapshot.
-/

structure VSDoc where
  id : String
  page_content : String
  metadata : DocMeta
deriving DecidableEq, Repr

structure BM25IndexState where
  documents : List String
  doc_ids : List String
  metadatas : List DocMeta
  cache : Option (List String × List String × List DocMeta)
deriving DecidableEq, Repr

/-- BM25Index.save (lines 209-227): skip when there are no documents,
otherwise overwrite the cache file with the current lists. -/
def BM25IndexState.save (b : BM25IndexState) : BM25IndexState :=
  if b.documents.isEmpty then b
  else { b with cache := some (b.documents, b.doc_ids, b.metadatas) }

/-- BM25Index.load (lines 229-267): missing cache or count mismatch with
the vector store leaves the state untouched and reports failure;
otherwise the cached lists replace the in-memory ones. -/
def BM25IndexState.load (b : BM25IndexState) (expected_count : Nat) :
    BM25IndexState × Bool :=
  match b.cache with
  | none => (b, false)
  | some data =>
    if data.1.length ≠ expected_count then (b, false)
    else ({ b with documents := data.1, doc_ids := data.2.1, metadatas := data.2.2 }, true)

/-- BM25Index.add_documents (lines 269-280): APPEND each document to the
in-memory lists (the metadata carries no id key, so the positional
default str(len(doc_ids)) is used), rebuild, then save. -/
def BM25IndexState.add_documents (b : BM25IndexState) (docs : List Doc) : BM25IndexState :=
  if docs.isEmpty then b
  else
    (docs.foldl
      (fun acc d =>
        { acc with documents := acc.documents ++ [d.page_content],
                   doc_ids := acc.doc_ids ++ [toString acc.doc_ids.length],
                   metadatas := acc.metadatas ++ [d.metadata] })
      b).save

structure EngineState where
  vectorstore : List VSDoc
  bm25_index : BM25IndexState
  parent_docs : List (String × List (String × String))
deriving DecidableEq, Repr

/-- AdvancedRAGEngine._load_bm25_index (lines 673-701): count the vector
store, try the cache, and on failure rebuild by adding every stored
document to the (NOT previously cleared) in-memory index; an empty vector
store skips the add. -/
def load_bm25_index (e : EngineState) : EngineState :=
  let db_doc_count := e.vectorstore.length
  let loaded := e.bm25_index.load db_doc_count
  if loaded.2 then { e with bm25_index := loaded.1 }
  else
    let all_docs := e.vectorstore.map
      (fun v => ({ page_content := v.page_content, metadata := v.metadata } : Doc))
    if all_docs.isEmpty then { e with bm25_index := loaded.1 }
    else { e with bm25_index := loaded.1.add_documents all_docs }

/-- parent_docs merge of ingest_document (lines 722-725): create the file
entry if needed, then merge the new parent map into it. -/
def updateParents (parents : List (String × List (String × String))) (filename : String)
    (parent_map : List (String × String)) : List (String × List (String × String)) :=
  match parents.find? (fun p => p.1 == filename) with
  | some _ => parents.map (fun p => if p.1 == filename then (p.1, p.2 ++ parent_map) else p)
  | none => parents ++ [(filename, parent_map)]

/-- ingest_document (lines 707-774) for an already-parsed document: merge
the parent map, add the chunks to the vector store (batching preserved
order) and to the BM25 index.  The ids of the vector store entries are
generated by the store and passed here explicitly. -/
def ingest_document (e : EngineState) (filename : String) (docs : List Doc)
    (new_ids : List String) (parent_map : List (String × String)) : EngineState :=
  if docs.isEmpty then e
  else
    let e1 := { e with parent_docs := updateParents e.parent_docs filename parent_map }
    let entries := (docs.zip new_ids).map
      (fun p => ({ id := p.2, page_content := p.1.page_content,
                   metadata := p.1.metadata } : VSDoc))
    let e2 := { e1 with vectorstore := e1.vectorstore ++ entries }
    { e2 with bm25_index := e2.bm25_index.add_documents docs }

/-- delete_document (lines 1463-1478): collect the vector store ids with
the given source, delete them, drop the parent entry, then call
_load_bm25_index to rebuild the lexical index. -/
def delete_document (e : EngineState) (filename : String) : EngineState :=
  let ids := (e.vectorstore.filter (fun v => v.metadata.source == filename)).map
    (fun v => v.id)
  let e1 := { e with vectorstore := e.vectorstore.filter (fun v => !(ids.contains v.id)) }
  let e2 := { e1 with parent_docs := e1.parent_docs.filter (fun p => !(p.1 == filename)) }
  load_bm25_index e2

def docF : Doc :=
  { page_content := "F content",
    metadata := { source := "f.pdf", chunk_id := "f.pdf_sec_000_Intro_0",
                  source_role := "primary" } }

def engine0 : EngineState :=
  { vectorstore := [],
    bm25_index := { documents := [], doc_ids := [], metadatas := [], cache := none },
    parent_docs := [] }

def engine1 : EngineState :=
  ingest_document engine0 "f.pdf" [docF] ["id1"] [("f.pdf_sec_000_Intro", "intro text")]

def engine2 : EngineState := delete_document engine1 "f.pdf"

/-- C1: evaluating ingest of f.pdf followed by delete_document of f.pdf.
The vector store and the parent map are clean, but the in-memory BM25
index still holds the chunk of f.pdf: the cache count mismatch forces a
rebuild, the rebuild appends the (empty) vector store contents to the
never-cleared in-memory lists, and the stale documents survive.  The
lexical index size is 1, not the prior 0. -/
theorem C1_delete_leaves_bm25_documents :
    (engine2.vectorstore.filter (fun v => v.metadata.source == "f.pdf")) = [] ∧
    (engine2.parent_docs.filter (fun p => p.1 == "f.pdf")) = [] ∧
    (engine2.bm25_index.metadatas.filter (fun m => m.source == "f.pdf")).length = 1 ∧
    engine0.bm25_index.documents.length = 0 ∧
    engine2.bm25_index.documents.length = 1 :=
  ⟨rfl, rfl, rfl, rfl, rfl⟩

/-! ## C6: strict truncation of outline slices

Embedding of the strict truncation step of PDFProcessor.process_pdf
(pdf_processor.py lines 151-178).  The compiled pattern is
backslash-n, one to six hash marks, backslash-s-plus, the escaped next
title, backslash-s-star, then newline or end, with re.IGNORECASE; on a
match the slice is cut at the match start and stripped.  The matcher
below implements exactly this pattern for titles that contain no
whitespace and no hash mark (then the deterministic maximal-munch
consumption coincides with the backtracking regex semantics, and the
escaped-space-to-whitespace rewriting of the source is vacuous).
-/

/-- Python backslash-s character class (ASCII). -/
def isWS (c : Char) : Bool :=
  c == ' ' || c == '\t' || c == '\n' || c == '\r' || c == '\x0b' || c == '\x0c'

/-- One to six hash marks. -/
def consumeHashes (l : List Char) : Option (List Char) :=
  let k := (l.takeWhile (fun c => c == '#')).length
  if 1 ≤ k ∧ k ≤ 6 then some (l.drop k) else none

/-- Backslash-s-plus. -/
def consumeWSPlus (l : List Char) : Option (List Char) :=
  match l with
  | [] => none
  | c :: rest => if isWS c then some ((c :: rest).dropWhile isWS) else none

def charEqCI (a b : Char) : Bool := a.toLower == b.toLower

/-- The escaped title, case-insensitively. -/
def consumeTitle : List Char → List Char → Option (List Char)
  | [], l => some l
  | _ :: _, [] => none
  | c :: t, x :: l => if charEqCI x c then consumeTitle t l else none

/-- Backslash-s-star followed by newline or end of string. -/
def tailOK : List Char → Bool
  | [] => true
  | c :: rest => if c == '\n' then true else if isWS c then tailOK rest else false

/-- The pattern after its leading newline. -/
def matchHeaderAfterNL (t : List Char) (l : List Char) : Bool :=
  match consumeHashes l with
  | none => false
  | some l1 =>
    match consumeWSPlus l1 with
    | none => false
    | some l2 =>
      match consumeTitle t l2 with
      | none => false
      | some l3 => tailOK l3

/-- The full pattern at one position. -/
def matchFrom (t : List Char) (l : List Char) : Bool :=
  match l with
  | c :: rest => c == '\n' && matchHeaderAfterNL t rest
  | [] => false

/-- re.search: index of the leftmost match. -/
def findMatch (t : List Char) : List Char → Option Nat
  | [] => none
  | c :: rest =>
    if matchFrom t (c :: rest) then some 0
    else (findMatch t rest).map (fun n => n + 1)

/-- Python str.strip(). -/
def pyStrip (l : List Char) : List Char :=
  ((l.dropWhile isWS).reverse.dropWhile isWS).reverse

/-- Lines 154-178: if the pattern is found, cut at the match start and
strip; otherwise keep the slice unchanged. -/
def truncateSlice (raw : List Char) (next_title : List Char) : List Char :=
  match findMatch next_title raw with
  | some p => pyStrip (raw.take p)
  | none => raw

/-- A markdown header line for the title: the line regex of the claim,
hash marks, whitespace, title, trailing whitespace, end of line (a line
holds no newline). -/
def isHeaderLine (t : List Char) (line : List Char) : Bool :=
  line.all (fun c => !(c == '\n')) && matchHeaderAfterNL t line

/-- The slice contains a full markdown header line for the title: the
line is delimited by the slice boundaries or newlines. -/
def HasHeaderLine (t s : List Char) : Prop :=
  ∃ u line v, s = u ++ line ++ v ∧
    (u = [] ∨ ∃ u2, u = u2 ++ ['\n']) ∧
    (v = [] ∨ ∃ v2, v = '\n' :: v2) ∧
    isHeaderLine t line = true

/-- Well-formedness of the next title under which the deterministic
matcher agrees with the regex: non-empty, no whitespace, no hash mark. -/
structure TitleWF (t : List Char) : Prop where
  ne : t ≠ []
  noWS : ∀ c ∈ t, isWS c = false
  noHash : ∀ c ∈ t, ¬ c = '#'

theorem findMatch_none (t : List Char) (l : List Char) (h : findMatch t l = none) :
    ∀ q, matchFrom t (l.drop q) = false := by
  induction l with
  | nil =>
    intro q
    rw [List.drop_nil]
    rfl
  | cons c rest ih =>
    intro q
    rw [findMatch] at h
    by_cases hm : matchFrom t (c :: rest)
    · rw [if_pos hm] at h
      cases h
    · rw [if_neg hm] at h
      have hrest : findMatch t rest = none := by
        rcases hfind : findMatch t rest with _ | p
        · rfl
        · rw [hfind] at h
          cases h
      cases q with
      | zero => simpa using hm
      | succ q => exact ih hrest q

theorem findMatch_some (t : List Char) (l : List Char) (p : Nat)
    (h : findMatch t l = some p) :
    matchFrom t (l.drop p) = true ∧ ∀ q, q < p → matchFrom t (l.drop q) = false := by
  induction l generalizing p with
  | nil => cases h
  | cons c rest ih =>
    rw [findMatch] at h
    by_cases hm : matchFrom t (c :: rest)
    · rw [if_pos hm] at h
      cases h
      exact ⟨by simpa using hm, fun q hq => absurd hq (by omega)⟩
    · rw [if_neg hm] at h
      rcases Option.map_eq_some'.mp h with ⟨p0, hp0, rfl⟩
      obtain ⟨h1, h2⟩ := ih p0 hp0
      refine ⟨h1, ?_⟩
      intro q hq
      cases q with
      | zero => simpa using hm
      | succ q => exact h2 q (by omega)

theorem drop_takeWhile_length (p : Char → Bool) (l : List Char) :
    l.drop ((l.takeWhile p).length) = l.dropWhile p := by
  induction l with
  | nil => rfl
  | cons c rest ih =>
    by_cases hc : p c
    · rw [List.takeWhile_cons, if_pos hc, List.dropWhile_cons, if_pos hc]
      simpa using ih
    · rw [List.takeWhile_cons, if_neg hc, List.dropWhile_cons, if_neg hc]
      rfl

theorem dropWhile_append_of_ne_nil {p : Char → Bool} {l : List Char} (z : List Char)
    (h : l.dropWhile p ≠ []) : (l ++ z).dropWhile p = l.dropWhile p ++ z := by
  induction l with
  | nil => exact absurd rfl h
  | cons c rest ih =>
    by_cases hc : p c
    · rw [List.cons_append, List.dropWhile_cons, if_pos hc, List.dropWhile_cons, if_pos hc]
      rw [List.dropWhile_cons, if_pos hc] at h
      exact ih h
    · rw [List.cons_append, List.dropWhile_cons, if_neg hc, List.dropWhile_cons, if_neg hc]
      rfl

theorem takeWhile_append_of_ne_nil {p : Char → Bool} {l : List Char} (z : List Char)
    (h : l.dropWhile p ≠ []) : (l ++ z).takeWhile p = l.takeWhile p := by
  induction l with
  | nil => exact absurd rfl h
  | cons c rest ih =>
    by_cases hc : p c
    · rw [List.cons_append, List.takeWhile_cons, if_pos hc, List.takeWhile_cons, if_pos hc]
      rw [List.dropWhile_cons, if_pos hc] at h
      rw [ih h]
    · rw [List.cons_append, List.takeWhile_cons, if_neg hc, List.takeWhile_cons, if_neg hc]

theorem drop_append_le {α : Type} (l z : List α) (n : Nat) (h : n ≤ l.length) :
    (l ++ z).drop n = l.drop n ++ z := by
  induction l generalizing n with
  | nil =>
    have : n = 0 := by simpa using h
    rw [this]
    rfl
  | cons c rest ih =>
    cases n with
    | zero => rfl
    | succ n =>
      rw [List.cons_append, List.drop_succ_cons, List.drop_succ_cons]
      exact ih n (by simpa using h)

theorem consumeHashes_append {l r : List Char} (z : List Char)
    (h : consumeHashes l = some r) (hr : r ≠ []) :
    consumeHashes (l ++ z) = some (r ++ z) := by
  unfold consumeHashes at h ⊢
  by_cases hcond : 1 ≤ (l.takeWhile (fun c => c == '#')).length ∧
      (l.takeWhile (fun c => c == '#')).length ≤ 6
  · rw [if_pos hcond] at h
    injection h with h
    have hdw : l.dropWhile (fun c => c == '#') ≠ [] := by
      rw [← drop_takeWhile_length (fun c => c == '#') l, h]
      exact hr
    have htw := takeWhile_append_of_ne_nil z hdw
    rw [htw, if_pos hcond]
    have hkle : (l.takeWhile (fun c => c == '#')).length ≤ l.length :=
      (List.takeWhile_prefix _).length_le
    rw [drop_append_le l z _ hkle, h]
  · rw [if_neg hcond] at h
    cases h

theorem consumeWSPlus_append {l r : List Char} (z : List Char)
    (h : consumeWSPlus l = some r) (hr : r ≠ []) :
    consumeWSPlus (l ++ z) = some (r ++ z) := by
  cases l with
  | nil => cases h
  | cons c rest =>
    rw [consumeWSPlus] at h
    by_cases hc : isWS c
    · rw [if_pos hc] at h
      injection h with h
      rw [List.cons_append, consumeWSPlus, if_pos hc]
      have hne : (c :: rest).dropWhile isWS ≠ [] := by
        rw [h]
        exact hr
      have hdw := dropWhile_append_of_ne_nil z hne
      rw [show (c :: (rest ++ z)) = (c :: rest) ++ z from rfl, hdw, h]
    · rw [if_neg hc] at h
      cases h

theorem consumeTitle_append {t l r : List Char} (z : List Char)
    (h : consumeTitle t l = some r) : consumeTitle t (l ++ z) = some (r ++ z) := by
  induction t generalizing l with
  | nil =>
    rw [consumeTitle] at h
    injection h with h
    rw [consumeTitle, h]
  | cons c t2 ih =>
    cases l with
    | nil => cases h
    | cons x l2 =>
      rw [consumeTitle] at h
      by_cases hx : charEqCI x c
      · rw [if_pos hx] at h
        rw [List.cons_append, consumeTitle, if_pos hx]
        exact ih h
      · rw [if_neg hx] at h
        cases h

theorem tailOK_append {v z : List Char} (hv : tailOK v = true) (hz : tailOK z = true) :
    tailOK (v ++ z) = true := by
  induction v with
  | nil => simpa using hz
  | cons c rest ih =>
    by_cases hc : (c == '\n') = true
    · rw [List.cons_append, tailOK, if_pos hc]
    · rw [tailOK, if_neg hc] at hv
      by_cases hw : isWS c
      · rw [if_pos hw] at hv
        rw [List.cons_append, tailOK, if_neg hc, if_pos hw]
        exact ih hv
      · rw [if_neg hw] at hv
        cases hv

theorem tailOK_of_all_ws {l : List Char} (h : ∀ c ∈ l, isWS c = true) : tailOK l = true := by
  induction l with
  | nil => rfl
  | cons c rest ih =>
    by_cases hc : (c == '\n') = true
    · rw [tailOK, if_pos hc]
    · rw [tailOK, if_neg hc, if_pos (h c (List.mem_cons_self _ _))]
      exact ih (fun b hb => h b (List.mem_cons_of_mem _ hb))

theorem tailOK_of_matchFrom {t l : List Char} (h : matchFrom t l = true) :
    tailOK l = true := by
  cases l with
  | nil => exact absurd h (by simp [matchFrom])
  | cons c rest =>
    rw [matchFrom] at h
    simp only [Bool.and_eq_true] at h
    rw [tailOK, if_pos h.1]

/-- Successful pattern match decomposed into its four stages. -/
theorem matchHeaderAfterNL_parts {t v : List Char} (hm : matchHeaderAfterNL t v = true) :
    ∃ v1 v2 v3, consumeHashes v = some v1 ∧ consumeWSPlus v1 = some v2 ∧
      consumeTitle t v2 = some v3 ∧ tailOK v3 = true := by
  unfold matchHeaderAfterNL at hm
  split at hm
  · cases hm
  · rename_i v1 h1
    split at hm
    · cases hm
    · rename_i v2 h2
      split at hm
      · cases hm
      · rename_i v3 h3
        exact ⟨v1, v2, v3, h1, h2, h3, hm⟩

theorem matchHeaderAfterNL_of_parts {t v v1 v2 v3 : List Char}
    (h1 : consumeHashes v = some v1) (h2 : consumeWSPlus v1 = some v2)
    (h3 : consumeTitle t v2 = some v3) (h4 : tailOK v3 = true) :
    matchHeaderAfterNL t v = true := by
  unfold matchHeaderAfterNL
  simp only [h1, h2, h3]
  exact h4

theorem matchHeaderAfterNL_append {t v : List Char} (z : List Char) (ht : t ≠ [])
    (hm : matchHeaderAfterNL t v = true) (hz : tailOK z = true) :
    matchHeaderAfterNL t (v ++ z) = true := by
  obtain ⟨v1, v2, v3, h1, h2, h3, h4⟩ := matchHeaderAfterNL_parts hm
  have hv1ne : v1 ≠ [] := by
    intro hnil
    rw [hnil] at h2
    cases h2
  have hv2ne : v2 ≠ [] := by
    intro hnil
    rw [hnil] at h3
    cases t with
    | nil => exact ht rfl
    | cons c t2 => cases h3
  exact matchHeaderAfterNL_of_parts (consumeHashes_append z h1 hv1ne)
    (consumeWSPlus_append z h2 hv2ne) (consumeTitle_append z h3) (tailOK_append h4 hz)

theorem matchFrom_append {t v : List Char} (z : List Char) (ht : t ≠ [])
    (hm : matchFrom t v = true) (hz : tailOK z = true) :
    matchFrom t (v ++ z) = true := by
  cases v with
  | nil => exact absurd hm (by simp [matchFrom])
  | cons c rest =>
    rw [matchFrom] at hm
    simp only [Bool.and_eq_true] at hm
    rw [List.cons_append, matchFrom]
    simp only [Bool.and_eq_true]
    exact ⟨hm.1, matchHeaderAfterNL_append z ht hm.2 hz⟩

theorem pyStrip_decomp (l : List Char) :
    ∃ l1 l2, l = l1 ++ pyStrip l ++ l2 ∧
      (∀ c ∈ l1, isWS c = true) ∧ (∀ c ∈ l2, isWS c = true) := by
  refine ⟨l.takeWhile isWS, ((l.dropWhile isWS).reverse.takeWhile isWS).reverse, ?_, ?_, ?_⟩
  · conv_lhs => rw [← List.takeWhile_append_dropWhile (p := isWS) (l := l)]
    rw [List.append_assoc]
    congr 1
    conv_lhs => rw [← List.reverse_reverse (l.dropWhile isWS),
      ← List.takeWhile_append_dropWhile (p := isWS) (l := (l.dropWhile isWS).reverse)]
    rw [List.reverse_append]
    rfl
  · intro c hc
    exact List.mem_takeWhile_imp hc
  · intro c hc
    rw [List.mem_reverse] at hc
    exact List.mem_takeWhile_imp hc

theorem truncateSlice_no_match (raw t : List Char) (hwf : TitleWF t) (q : Nat) :
    matchFrom t ((truncateSlice raw t).drop q) = false := by
  unfold truncateSlice
  rcases hfind : findMatch t raw with _ | p
  · exact findMatch_none t raw hfind q
  · show matchFrom t ((pyStrip (raw.take p)).drop q) = false
    obtain ⟨h1, h2⟩ := findMatch_some t raw p hfind
    by_contra hmatch
    rw [Bool.not_eq_false] at hmatch
    obtain ⟨l1, l2, hdecomp, hl1, hl2⟩ := pyStrip_decomp (raw.take p)
    set core := pyStrip (raw.take p) with hcoredef
    have hqlt : q < core.length := by
      by_contra hge
      rw [List.drop_of_length_le (by omega)] at hmatch
      exact absurd hmatch (by simp [matchFrom])
    have hlen : l1.length + core.length + l2.length = (raw.take p).length := by
      have hc := congrArg List.length hdecomp
      simp only [List.length_append] at hc
      omega
    have htakelen : (raw.take p).length ≤ p := by
      simp [List.length_take]
    have hp0lt : l1.length + q < p := by omega
    have hraw : raw = (l1 ++ (core ++ l2)) ++ raw.drop p := by
      conv_lhs => rw [← List.take_append_drop p raw]
      rw [hdecomp]
      simp [List.append_assoc]
    have hdropraw : raw.drop (l1.length + q) = core.drop q ++ (l2 ++ raw.drop p) := by
      conv_lhs => rw [hraw]
      rw [List.append_assoc, List.drop_append, List.append_assoc]
      exact drop_append_le _ _ q (by omega)
    have htail : tailOK (l2 ++ raw.drop p) = true :=
      tailOK_append (tailOK_of_all_ws hl2) (tailOK_of_matchFrom h1)
    have hlift : matchFrom t (raw.drop (l1.length + q)) = true := by
      rw [hdropraw]
      exact matchFrom_append _ hwf.ne hmatch htail
    rw [h2 (l1.length + q) hp0lt] at hlift
    cases hlift

theorem truncateSlice_no_interior_header (raw t : List Char) (hwf : TitleWF t)
    (u line v : List Char) (hdecomp : truncateSlice raw t = u ++ '\n' :: (line ++ v))
    (hv : v = [] ∨ ∃ v2, v = '\n' :: v2) :
    isHeaderLine t line = false := by
  by_contra hh
  rw [Bool.not_eq_false] at hh
  unfold isHeaderLine at hh
  simp only [Bool.and_eq_true] at hh
  obtain ⟨hnoNL, hmh⟩ := hh
  have htailv : tailOK v = true := by
    rcases hv with rfl | ⟨v2, rfl⟩
    · rfl
    · rfl
  have hmh2 : matchHeaderAfterNL t (line ++ v) = true :=
    matchHeaderAfterNL_append v hwf.ne hmh htailv
  have hm : matchFrom t ('\n' :: (line ++ v)) = true := by
    rw [matchFrom]
    simp only [Bool.and_eq_true]
    exact ⟨rfl, hmh2⟩
  have hdrop : (truncateSlice raw t).drop u.length = '\n' :: (line ++ v) := by
    rw [hdecomp]
    exact List.drop_left u _
  have hcontra := truncateSlice_no_match raw t hwf u.length
  rw [hdrop, hm] at hcontra
  cases hcontra

def exC6Raw : List Char := "# B\nfoo\n# B\nbar".toList
def exC6Title : List Char := "B".toList

/-- C6 counterexample: for the slice that begins with a header line for
the next title B, truncation cuts only at the second, newline-preceded
occurrence, and the emitted slice still contains the markdown header line
for B (as its first line), contradicting the claim that no such line
survives in any emitted slice. -/
theorem C6_header_survives_counterexample :
    truncateSlice exC6Raw exC6Title = "# B\nfoo".toList ∧
    HasHeaderLine exC6Title (truncateSlice exC6Raw exC6Title) := by
  constructor
  · decide
  · exact ⟨[], "# B".toList, '\n' :: "foo".toList, by decide, Or.inl rfl,
      Or.inr ⟨"foo".toList, rfl⟩, by decide⟩

/-- C6 amended: after the truncation step, for a next title without
whitespace or hash marks, no occurrence of the search pattern
(newline, hashes, whitespace, title, trailing whitespace, newline or end)
remains anywhere in the emitted slice, and hence no markdown header line
for the title survives at any position other than the very start of the
slice (a slice-initial header is not preceded by a newline and is outside
the reach of the pattern). -/
theorem C6_truncation_amended (raw t : List Char) (hwf : TitleWF t) :
    (∀ q, matchFrom t ((truncateSlice raw t).drop q) = false) ∧
    (∀ u line v, truncateSlice raw t = u ++ '\n' :: (line ++ v) →
      (v = [] ∨ ∃ v2, v = '\n' :: v2) → isHeaderLine t line = false) :=
  ⟨fun q => truncateSlice_no_match raw t hwf q,
   fun u line v h1 h2 => truncateSlice_no_interior_header raw t hwf u line v h1 h2⟩

def exC6Raw2 : List Char := "# A\nfoo\n# B\nbar".toList

/-- C6 witness: the amended theorem applied to a concrete slice whose
next section is titled B. -/
theorem C6_truncation_amended_witness :
    isHeaderLine "B".toList "foo".toList = false ∧
    matchFrom "B".toList ((truncateSlice exC6Raw2 "B".toList).drop 0) = false := by
  have h := C6_truncation_amended exC6Raw2 "B".toList
    ⟨by decide, by decide, by decide⟩
  refine ⟨?_, h.1 0⟩
  exact h.2 "# A".toList "foo".toList [] (by decide) (Or.inl rfl)

/-! ## C7: chunk id construction and uniqueness

Embedding of the id assignment of the two ingestion paths.  PDF
(pdf_processor.py lines 188-244): parent_id is the filename, the literal
sec tag, the zero-padded three-digit outline index and the sanitized
title truncated to 50 characters; each child chunk gets parent_id,
underscore, ordinal.  Markdown (rag_engine.py lines 740-753): chunk_id is
the bare integer enumeration index.  Python int and str metadata values
never compare equal, so the two shapes live in a sum type.
-/

inductive ChunkIdVal
  | intId (n : Nat)
  | strId (s : List Char)
deriving DecidableEq, Repr

/-- re.sub of the non-alphanumeric class with an underscore, then the
50-character cut (line 192). -/
def sanitizeTitle (title : List Char) : List Char :=
  (title.map (fun c => if c.isAlphanum then c else '_')).take 50

def digitChar (d : Nat) : Char := Char.ofNat (48 + d)

/-- Decimal representation of a natural, as produced by str(n). -/
def repNat (n : Nat) : List Char :=
  if n = 0 then ['0'] else ((Nat.digits 10 n).map digitChar).reverse

/-- Python format specifier 03d: left pad the decimal form with zeros to
width three. -/
def pad3 (n : Nat) : List Char :=
  List.replicate (3 - (repNat n).length) '0' ++ repNat n

/-- Line 193: parent_id of an outline section. -/
def makeParentId (filename : List Char) (i : Nat) (title : List Char) : List Char :=
  filename ++ "_sec_".toList ++ pad3 i ++ ['_'] ++ sanitizeTitle title

/-- Lines 212 and 239: chunk_id of one child. -/
def makeChunkId (parent_id : List Char) (idx : Nat) : List Char :=
  parent_id ++ ['_'] ++ repNat idx

/-- One emitted outline section: its index in the outline, its title, and
how many child chunks the splitter produced for it (at least one). -/
structure PDFSectionOut where
  toc_index : Nat
  title : List Char
  num_children : Nat
deriving DecidableEq, Repr

/-- All chunk ids emitted by process_pdf for one file. -/
def pdfChunkIds (filename : List Char) (sections : List PDFSectionOut) : List ChunkIdVal :=
  sections.flatMap (fun sec =>
    (List.range sec.num_children).map
      (fun idx => ChunkIdVal.strId
        (makeChunkId (makeParentId filename sec.toc_index sec.title) idx)))

/-- Chunk ids assigned by the markdown branch of ingest_document
(line 745): the enumeration index itself. -/
def mdChunkIds (chunk_count : Nat) : List ChunkIdVal :=
  (List.range chunk_count).map ChunkIdVal.intId

/-- Filenames accepted by the PDF ingestion path: they end with a dot
followed by three non-dot characters (the pdf extension, in any case). -/
def PdfFilenameWF (f : List Char) : Prop :=
  ∃ f0 a b c, f = f0 ++ ['.', a, b, c] ∧ ¬ a = '.' ∧ ¬ b = '.' ∧ ¬ c = '.'

def charVal (c : Char) : Nat := c.toNat - 48

theorem digitChar_isDigit {d : Nat} (hd : d < 10) : (digitChar d).isDigit = true := by
  interval_cases d <;> decide

theorem charVal_digitChar {d : Nat} (hd : d < 10) : charVal (digitChar d) = d := by
  interval_cases d <;> decide

theorem repNat_all_digits (n : Nat) : ∀ c ∈ repNat n, c.isDigit = true := by
  unfold repNat
  split
  · intro c hc
    have := List.mem_singleton.mp hc
    rw [this]
    decide
  · intro c hc
    rw [List.mem_reverse] at hc
    rcases List.mem_map.mp hc with ⟨d, hd, rfl⟩
    exact digitChar_isDigit (Nat.digits_lt_base (by norm_num) hd)

theorem pad3_all_digits (n : Nat) : ∀ c ∈ pad3 n, c.isDigit = true := by
  intro c hc
  rcases List.mem_append.mp hc with h | h
  · have := List.eq_of_mem_replicate h
    rw [this]
    decide
  · exact repNat_all_digits n c h

def valDigits (l : List Char) : Nat := l.foldl (fun a c => 10 * a + charVal c) 0

theorem valDigits_append_one (l : List Char) (c : Char) :
    valDigits (l ++ [c]) = 10 * valDigits l + charVal c := by
  simp [valDigits, List.foldl_append]

theorem valDigits_rep (n : Nat) : valDigits (repNat n) = n := by
  unfold repNat
  split
  · rename_i h
    rw [h]
    decide
  · have key : ∀ l : List Nat, (∀ d ∈ l, d < 10) →
        valDigits ((l.map digitChar).reverse) = Nat.ofDigits 10 l := by
      intro l
      induction l with
      | nil => intro _; rfl
      | cons d l2 ih =>
        intro hall
        rw [List.map_cons, List.reverse_cons, valDigits_append_one,
          ih (fun x hx => hall x (List.mem_cons_of_mem _ hx)),
          Nat.ofDigits_cons, charVal_digitChar (hall d (List.mem_cons_self _ _))]
        ring
    rw [key _ (fun d hd => Nat.digits_lt_base (by norm_num) hd)]
    exact_mod_cast Nat.ofDigits_digits 10 n

theorem valDigits_zeros (k : Nat) (l : List Char) :
    valDigits (List.replicate k '0' ++ l) = valDigits l := by
  induction k with
  | zero => rfl
  | succ k ih =>
    rw [List.replicate_succ, List.cons_append]
    exact ih

theorem valDigits_pad3 (n : Nat) : valDigits (pad3 n) = n := by
  unfold pad3
  rw [valDigits_zeros]
  exact valDigits_rep n

theorem repNat_inj {m n : Nat} (h : repNat m = repNat n) : m = n := by
  have := congrArg valDigits h
  rwa [valDigits_rep, valDigits_rep] at this

theorem pad3_inj {m n : Nat} (h : pad3 m = pad3 n) : m = n := by
  have := congrArg valDigits h
  rwa [valDigits_pad3, valDigits_pad3] at this

theorem takeWhile_append_stop {p : Char → Bool} {a : List Char} (c : Char) (b : List Char)
    (ha : ∀ x ∈ a, p x = true) (hc : p c = false) :
    (a ++ c :: b).takeWhile p = a := by
  induction a with
  | nil =>
    rw [List.nil_append, List.takeWhile_cons, if_neg (by simp [hc])]
  | cons x a2 ih =>
    rw [List.cons_append, List.takeWhile_cons, if_pos (ha x (List.mem_cons_self _ _)),
      ih (fun y hy => ha y (List.mem_cons_of_mem _ hy))]

theorem dropWhile_append_all {p : Char → Bool} {a : List Char} (b : List Char)
    (ha : ∀ x ∈ a, p x = true) :
    (a ++ b).dropWhile p = b.dropWhile p := by
  induction a with
  | nil => rfl
  | cons x a2 ih =>
    rw [List.cons_append, List.dropWhile_cons, if_pos (ha x (List.mem_cons_self _ _))]
    exact ih (fun y hy => ha y (List.mem_cons_of_mem _ hy))

theorem sanitizeTitle_no_dot (t : List Char) : ∀ c ∈ sanitizeTitle t, ¬ c = '.' := by
  intro c hc
  have hc2 := List.mem_of_mem_take hc
  rcases List.mem_map.mp hc2 with ⟨x, _, rfl⟩
  by_cases hx : x.isAlphanum
  · rw [if_pos hx]
    intro hdot
    rw [hdot] at hx
    exact absurd hx (by decide)
  · rw [if_neg hx]
    decide

theorem sec_tag_no_dot : ∀ c ∈ "_sec_".toList, ¬ c = '.' := by decide

theorem digit_no_dot {c : Char} (h : c.isDigit = true) : ¬ c = '.' := by
  intro hc
  rw [hc] at h
  exact absurd h (by decide)

/-- Canonical right-associated form of a PDF chunk id. -/
theorem chunkId_eq (f : List Char) (i : Nat) (t : List Char) (n : Nat) :
    makeChunkId (makeParentId f i t) n =
      f ++ ("_sec_".toList ++ (pad3 i ++ ('_' :: (sanitizeTitle t ++ ('_' :: repNat n))))) := by
  unfold makeChunkId makeParentId
  simp [List.append_assoc]

theorem chunkTail_no_dot (i : Nat) (t : List Char) (n : Nat) :
    ∀ c ∈ ("_sec_".toList ++ (pad3 i ++ ('_' :: (sanitizeTitle t ++ ('_' :: repNat n))))),
      ¬ c = '.' := by
  intro c hc
  rcases List.mem_append.mp hc with h | h
  · exact sec_tag_no_dot c h
  · rcases List.mem_append.mp h with h | h
    · exact digit_no_dot (pad3_all_digits i c h)
    · rcases List.mem_cons.mp h with rfl | h
      · decide
      · rcases List.mem_append.mp h with h | h
        · exact sanitizeTitle_no_dot t c h
        · rcases List.mem_cons.mp h with rfl | h
          · decide
          · exact digit_no_dot (repNat_all_digits n c h)

theorem lastDot_split (g : List Char) (a b c : Char) (S : List Char)
    (hS : ∀ x ∈ S, ¬ x = '.') (ha : ¬ a = '.') (hb : ¬ b = '.') (hc : ¬ c = '.') :
    ((g ++ ['.', a, b, c]) ++ S).reverse.dropWhile (fun x => !(x == '.')) =
      '.' :: g.reverse := by
  have hshape : ((g ++ ['.', a, b, c]) ++ S).reverse =
      S.reverse ++ (c :: b :: a :: '.' :: g.reverse) := by
    simp [List.reverse_append]
  rw [hshape]
  rw [dropWhile_append_all _ (by
    intro x hx
    rw [List.mem_reverse] at hx
    simpa using hS x hx)]
  rw [List.dropWhile_cons, if_pos (by simpa using hc)]
  rw [List.dropWhile_cons, if_pos (by simpa using hb)]
  rw [List.dropWhile_cons, if_pos (by simpa using ha)]
  rw [List.dropWhile_cons, if_neg (by simp)]

theorem filename_eq_of_append_eq {f1 f2 S1 S2 : List Char}
    (h1 : PdfFilenameWF f1) (h2 : PdfFilenameWF f2)
    (hS1 : ∀ c ∈ S1, ¬ c = '.') (hS2 : ∀ c ∈ S2, ¬ c = '.')
    (heq : f1 ++ S1 = f2 ++ S2) : f1 = f2 ∧ S1 = S2 := by
  obtain ⟨g1, a1, b1, c1, hf1, ha1, hb1, hc1⟩ := h1
  obtain ⟨g2, a2, b2, c2, hf2, ha2, hb2, hc2⟩ := h2
  rw [hf1, hf2] at heq
  have e1 := lastDot_split g1 a1 b1 c1 S1 hS1 ha1 hb1 hc1
  have e2 := lastDot_split g2 a2 b2 c2 S2 hS2 ha2 hb2 hc2
  rw [heq] at e1
  rw [e2] at e1
  injection e1 with _ hg
  have hgg : g1 = g2 := by
    have := congrArg List.reverse hg
    simpa using this.symm
  rw [hgg] at heq
  rw [List.append_assoc, List.append_assoc] at heq
  have htail := List.append_cancel_left heq
  simp only [List.cons_append, List.nil_append, List.cons.injEq] at htail
  obtain ⟨-, hab, hbb, hcc, hSS⟩ := htail
  refine ⟨?_, hSS⟩
  rw [hf1, hf2, hgg, hab, hbb, hcc]

theorem pdfChunkId_inj {f1 f2 t1 t2 : List Char} {i1 i2 n1 n2 : Nat}
    (h1 : PdfFilenameWF f1) (h2 : PdfFilenameWF f2)
    (heq : makeChunkId (makeParentId f1 i1 t1) n1 = makeChunkId (makeParentId f2 i2 t2) n2) :
    f1 = f2 ∧ i1 = i2 ∧ n1 = n2 := by
  rw [chunkId_eq, chunkId_eq] at heq
  obtain ⟨hf, hS⟩ := filename_eq_of_append_eq h1 h2 (chunkTail_no_dot i1 t1 n1)
    (chunkTail_no_dot i2 t2 n2) heq
  have hR : pad3 i1 ++ ('_' :: (sanitizeTitle t1 ++ ('_' :: repNat n1))) =
      pad3 i2 ++ ('_' :: (sanitizeTitle t2 ++ ('_' :: repNat n2))) :=
    List.append_cancel_left hS
  refine ⟨hf, ?_, ?_⟩
  · have htw := congrArg (List.takeWhile Char.isDigit) hR
    rw [takeWhile_append_stop _ _ (pad3_all_digits i1) (by decide),
        takeWhile_append_stop _ _ (pad3_all_digits i2) (by decide)] at htw
    exact pad3_inj htw
  · have hrev := congrArg List.reverse hR
    have hshape : ∀ (i : Nat) (t : List Char) (n : Nat),
        (pad3 i ++ ('_' :: (sanitizeTitle t ++ ('_' :: repNat n)))).reverse =
          (repNat n).reverse ++ ('_' :: ((sanitizeTitle t).reverse ++
            ('_' :: (pad3 i).reverse))) := by
      intro i t n
      simp [List.reverse_append]
    rw [hshape, hshape] at hrev
    have htw := congrArg (List.takeWhile Char.isDigit) hrev
    rw [takeWhile_append_stop _ _ (fun c hc => repNat_all_digits n1 c
          (List.mem_reverse.mp hc)) (by decide),
        takeWhile_append_stop _ _ (fun c hc => repNat_all_digits n2 c
          (List.mem_reverse.mp hc)) (by decide)] at htw
    exact repNat_inj (List.reverse_injective htw)

theorem makeChunkId_idx_inj {p : List Char} {m n : Nat}
    (h : makeChunkId p m = makeChunkId p n) : m = n := by
  unfold makeChunkId at h
  rw [List.append_assoc, List.append_assoc] at h
  have h2 := List.append_cancel_left h
  have h3 := List.append_cancel_left h2
  exact repNat_inj h3

/-- C7 amended: every chunk emitted by PDF ingestion carries a chunk id
of the form parent id, underscore, ordinal with the ordinal below the
child count of its section; all chunk ids of one PDF document are
pairwise distinct; and across documents a PDF chunk id determines its
filename, outline index and ordinal, so PDF chunk ids never collide for
distinct well-formed filenames.  (Markdown chunks instead reuse bare
integer positions; see the counterexample.) -/
theorem C7_chunk_ids_amended (f : List Char) (hf : PdfFilenameWF f)
    (sections : List PDFSectionOut)
    (hsec : sections.Pairwise (fun s1 s2 => s1.toc_index ≠ s2.toc_index)) :
    (∀ cid ∈ pdfChunkIds f sections, ∃ sec ∈ sections, ∃ idx, idx < sec.num_children ∧
      cid = ChunkIdVal.strId
        (makeChunkId (makeParentId f sec.toc_index sec.title) idx)) ∧
    (pdfChunkIds f sections).Nodup ∧
    (∀ f2 t1 t2 i1 i2 n1 n2, PdfFilenameWF f2 →
      makeChunkId (makeParentId f i1 t1) n1 = makeChunkId (makeParentId f2 i2 t2) n2 →
      f = f2 ∧ i1 = i2 ∧ n1 = n2) := by
  refine ⟨?_, ?_, ?_⟩
  · intro cid hc
    rcases List.mem_flatMap.mp hc with ⟨sec, hsecmem, hcid⟩
    rcases List.mem_map.mp hcid with ⟨idx, hidx, rfl⟩
    exact ⟨sec, hsecmem, idx, List.mem_range.mp hidx, rfl⟩
  · unfold pdfChunkIds
    rw [List.nodup_flatMap]
    constructor
    · intro sec _
      refine List.Nodup.map_on ?_ (List.nodup_range _)
      intro x _ y _ hxy
      injection hxy with hxy
      exact makeChunkId_idx_inj hxy
    · refine hsec.imp ?_
      intro s1 s2 hne
      intro cid hc1 hc2
      rcases List.mem_map.mp hc1 with ⟨x, _, rfl⟩
      rcases List.mem_map.mp hc2 with ⟨y, _, hxy⟩
      injection hxy with h
      exact hne (pdfChunkId_inj hf hf h.symm).2.1
  · intro f2 t1 t2 i1 i2 n1 n2 hf2 heq
    exact pdfChunkId_inj hf hf2 heq

/-- C7 counterexample: markdown ingestion assigns the bare enumeration
index as chunk_id, so two markdown documents ingested into the corpus
share the chunk id 0 and corpus-wide uniqueness fails (and the id is an
integer, not a parent-id-underscore-ordinal string). -/
theorem C7_md_shared_ids_counterexample :
    mdChunkIds 1 = [ChunkIdVal.intId 0] ∧
    ¬ ([("a.md", mdChunkIds 1), ("b.md", mdChunkIds 1)].flatMap Prod.snd).Nodup := by
  constructor
  · rfl
  · decide

def exC7Sections : List PDFSectionOut :=
  [{ toc_index := 0, title := "Intro".toList, num_children := 2 },
   { toc_index := 1, title := "Body".toList, num_children := 1 }]

/-- C7 witness: the amended theorem applied to a concrete two-section
document with a well-formed filename. -/
theorem C7_chunk_ids_amended_witness :
    (pdfChunkIds "a.pdf".toList exC7Sections).Nodup ∧ (1 : Nat) = 1 := by
  have h := C7_chunk_ids_amended "a.pdf".toList
    ⟨"a".toList, 'p', 'd', 'f', by decide, by decide, by decide, by decide⟩
    exC7Sections (by decide)
  refine ⟨h.2.1, ?_⟩
  exact (h.2.2 "a.pdf".toList "Intro".toList "Intro".toList 0 0 1 1
    ⟨"a".toList, 'p', 'd', 'f', by decide, by decide, by decide, by decide⟩ rfl).2.2

end KnowledgeSystem
